import Mathlib

/-!
Shallow embedding of the `prseq` repository's pure-Python FASTA/FASTQ
parsers (`src/python/benchmark/benchmarks/bench_pure_python.py`) together
with the record types of `src/python/src/prseq/fastq.py`, and proofs of
the specification's claims about them.

Text is modelled as `List Char` (one Python `str` character per list
element).  A file is modelled as the list of its physical lines, each
line carrying its terminator characters exactly as `f.readline()` /
`for line in f` would produce it; end-of-file is the empty list (Python's
`readline` then returns the empty string).
-/

namespace Prseq

/-- `'\n'` or `'\r'`: the characters removed by Python's
`line.rstrip('\n\r')`. -/
def isTermChar (c : Char) : Bool :=
  c = '\n' || c = '\r'

/-- Python's `line.rstrip('\n\r')`: remove every trailing `'\n'`/`'\r'`. -/
def rstripNlCr (l : List Char) : List Char :=
  (l.reverse.dropWhile isTermChar).reverse

/-- Python's `line.startswith(c)` for a one-character prefix `c`. -/
def startsWithChar (c : Char) : List Char → Bool
  | [] => false
  | d :: _ => d = c

/-- FASTA record of `bench_pure_python.py` (`FastaRecord` NamedTuple with
fields `id` and `sequence`, in that order). -/
structure FastaRecord where
  id : List Char
  sequence : List Char
deriving DecidableEq, Repr

/-- FASTQ record (`FastqRecord` in both `bench_pure_python.py` and
`src/python/src/prseq/fastq.py`): fields `id`, `sequence`, `quality`. -/
structure FastqRecord where
  id : List Char
  sequence : List Char
  quality : List Char
deriving DecidableEq, Repr

/-- The loop body state of `read_fasta`: `cur` is `current_id`
(`None` before any header line), `acc` is `current_seq` (the list of
stripped sequence lines accumulated so far).  Each step takes the next
physical line, strips its terminators, and either closes the pending
record on a `>` line or appends the line to the accumulator; at
end-of-input the pending record (if any) is emitted. -/
def fastaAux (cur : Option (List Char)) (acc : List (List Char)) :
    List (List Char) → List FastaRecord
  | [] =>
    match cur with
    | none => []
    | some i => [⟨i, acc.flatten⟩]
  | l :: rest =>
    let s := rstripNlCr l
    if startsWithChar '>' s then
      (match cur with
       | none => []
       | some i => [⟨i, acc.flatten⟩]) ++ fastaAux (some (s.drop 1)) [] rest
    else
      fastaAux cur (acc ++ [s]) rest

/-- `read_fasta` of `bench_pure_python.py` on the physical lines of the
input file. -/
def readFasta (lines : List (List Char)) : List FastaRecord :=
  fastaAux none [] lines

/-- The sequence-reading loop of `read_fastq`: read lines until
end-of-file or a line beginning with `'+'` (the raw line is tested, and
the `+` line is consumed and discarded).  Returns the collected stripped
sequence lines and the remaining input. -/
def seqLoop : List (List Char) → List (List Char) × List (List Char)
  | [] => ([], [])
  | l :: rest =>
    if l = [] || startsWithChar '+' l then ([], rest)
    else
      let (ps, r) := seqLoop rest
      (rstripNlCr l :: ps, r)

/-- The quality-reading loop of `read_fastq`
(`while qual_length < len(seq_str)`), with explicit fuel: each loop
iteration consumes one unit.  At end-of-file `readline` returns the
empty string, whose stripped form adds zero characters, so the loop
state no longer changes; running out of fuel (`none`) therefore models
an execution that has not terminated within `fuel` iterations. -/
def qualLoop (fuel need : Nat) (acc : List Char) (lines : List (List Char)) :
    Option (List Char × List (List Char)) :=
  match fuel with
  | 0 => none
  | fuel + 1 =>
    if acc.length < need then
      match lines with
      | [] => qualLoop fuel need acc []
      | l :: rest => qualLoop fuel need (acc ++ rstripNlCr l) rest
    else
      some (acc, lines)

/-- The outer `while True` loop of `read_fastq`, with fuel decremented
once per record: read the id line (EOF ends iteration), strip the
terminators and drop the first character to form `id`, collect sequence
lines up to the `+` line, then run the quality loop until its
accumulated length reaches the sequence length. -/
def fastqAux : Nat → List (List Char) → Option (List FastqRecord)
  | 0, _ => none
  | _ + 1, [] => some []
  | fuel + 1, idLine :: rest =>
    if idLine = [] then some []
    else
      let idStr := (rstripNlCr idLine).drop 1
      let (seqParts, rest2) := seqLoop rest
      let seqStr := seqParts.flatten
      match qualLoop fuel seqStr.length [] rest2 with
      | none => none
      | some (qual, rest3) =>
        match fastqAux fuel rest3 with
        | none => none
        | some recs => some (⟨idStr, seqStr, qual⟩ :: recs)

/-- `read_fastq` of `bench_pure_python.py` on the physical lines of the
input file, with fuel bounding the number of loop iterations;
`none` means the run has not finished within the given fuel. -/
def readFastq (fuel : Nat) (lines : List (List Char)) :
    Option (List FastqRecord) :=
  fastqAux fuel lines

/-- Terminator-free normal form of `seqLoop`: the same loop acting on
the lines with their terminators already removed.  Used to show the
parse result does not depend on which terminator the file used. -/
def seqLoopC : List (List Char) → List (List Char) × List (List Char)
  | [] => ([], [])
  | l :: rest =>
    if startsWithChar '+' l then ([], rest)
    else
      let (ps, r) := seqLoopC rest
      (rstripNlCr l :: ps, r)

/-- Terminator-free normal form of `fastqAux` (see `seqLoopC`). -/
def fastqAuxC : Nat → List (List Char) → Option (List FastqRecord)
  | 0, _ => none
  | _ + 1, [] => some []
  | fuel + 1, idLine :: rest =>
    let idStr := (rstripNlCr idLine).drop 1
    let (seqParts, rest2) := seqLoopC rest
    let seqStr := seqParts.flatten
    match qualLoop fuel seqStr.length [] rest2 with
    | none => none
    | some (qual, rest3) =>
      match fastqAuxC fuel rest3 with
      | none => none
      | some recs => some (⟨idStr, seqStr, qual⟩ :: recs)

/-- Structural worker for `wrapChunks`: `bound` only forces termination
and never binds when `bound ≥ s.length` (each step consumes at least one
character). -/
def wrapChunksAux (bound w : Nat) (s : List Char) : List (List Char) :=
  match bound, s with
  | _, [] => []
  | 0, _ :: _ => []
  | bound + 1, c :: cs => (c :: cs.take (w - 1)) :: wrapChunksAux bound w (cs.drop (w - 1))

/-- `write_wrapped_lines` of `benchmark/generate_data.py` (the repo's own
line wrapper): `text[i:i+w]` for `i in range(0, len(text), w)` — chunks
of `w` characters, the last possibly shorter, and no line at all for
empty text.  Meaningful for `w ≥ 1`. -/
def wrapChunks (w : Nat) (s : List Char) : List (List Char) :=
  wrapChunksAux s.length w s

/-- The physical lines a FASTA record is written as: the `>` header line
followed by the sequence wrapped at width `w`, every line terminated by
`'\n'` (as `generate_data.py` writes them). -/
def renderRecord (w : Nat) (r : FastaRecord) : List (List Char) :=
  (('>' :: r.id) ++ ['\n']) :: (wrapChunks w r.sequence).map (· ++ ['\n'])

/-- A whole FASTA file rendered from records at wrap width `w`. -/
def renderFasta (w : Nat) (rs : List FastaRecord) : List (List Char) :=
  (rs.map (renderRecord w)).flatten

/-- A header line: a physical line starting with `'>'`. -/
def isHeaderLine (l : List Char) : Bool :=
  startsWithChar '>' l

/-- Number of header lines in an input. -/
def countHeaders (lines : List (List Char)) : Nat :=
  (lines.filter isHeaderLine).length

/-- Characters that may appear in a record id or sequence for the
round-trip statements: no line terminators (and for sequences, no `'>'`,
so that no wrapped chunk can look like a header line). -/
def cleanText (l : List Char) : Bool :=
  l.all fun c => !isTermChar c

/-- A sequence body that cannot collide with the line-oriented syntax:
terminator-free and free of the `'>'` marker. -/
def cleanSeq (l : List Char) : Bool :=
  l.all fun c => !isTermChar c && c ≠ '>'

/-- The Python values a `FastqRecord` may be compared against in
`FastqRecord.__eq__` (`src/python/src/prseq/fastq.py`): another record,
or a value of some other type (modelled by representative other types). -/
inductive PyValue where
  | fastq (r : FastqRecord)
  | str (s : List Char)
  | int (n : Int)
  | noneVal
deriving DecidableEq, Repr

/-- `FastqRecord.__eq__`: `isinstance(other, FastqRecord)` fails on any
non-record value (returning `False`, not raising); otherwise the three
fields are compared. -/
def fastqRecordEq (r : FastqRecord) : PyValue → Bool
  | .fastq o => r.id = o.id && r.sequence = o.sequence && r.quality = o.quality
  | _ => false

/-- The resolved byte source of a reader. -/
inductive Source where
  | file (path : List Char)
  | stream
  | stdin
deriving DecidableEq, Repr

/-- The one configuration error of selector resolution. -/
inductive ConfigError where
  | bothPathAndFile
deriving DecidableEq, Repr

/-- Outcome of constructing a reader: a resolved source, or a
configuration error. -/
inductive SelectorResult where
  | ok (s : Source)
  | err (e : ConfigError)
deriving DecidableEq, Repr

/-- Modelled from the spec: the input-selector resolution shared by the
reader constructors.  The validating code lives in the Rust core behind
`prseq._prseq.FastqReader` / `prseq.prseq.FastaReader` and in the
`prseq.fasta` module, none of which are under `src/`; only the Python
signatures (`path`, `file`, both optional) and the docstring
("ValueError: If both path and file are provided") are.  Per the spec:
"accepts exactly one of {filesystem path, open byte stream, read
standard input}; supplying more than one selector is a configuration
error", with `-` or an absent path meaning standard input. -/
def resolveSelector (path : Option (List Char)) (hasFile : Bool) :
    SelectorResult :=
  match path, hasFile with
  | some _, true => .err .bothPathAndFile
  | some p, false => if p = ['-'] then .ok .stdin else .ok (.file p)
  | none, true => .ok .stream
  | none, false => .ok .stdin

/-! ### Helper lemmas -/

theorem dropWhile_eq_self_of_all {p : Char → Bool} {l : List Char}
    (h : ∀ c ∈ l, p c = false) : l.dropWhile p = l := by
  cases l with
  | nil => rfl
  | cons a as =>
    rw [List.dropWhile_cons, h a (List.mem_cons_self a as)]
    simp

theorem rstrip_of_clean {l : List Char} (h : cleanText l = true) :
    rstripNlCr l = l := by
  unfold rstripNlCr
  rw [dropWhile_eq_self_of_all, List.reverse_reverse]
  intro c hc
  have := (List.all_eq_true.mp h) c (List.mem_reverse.mp hc)
  simpa using this

theorem rstrip_append_term {l t : List Char} (h : ∀ c ∈ t, isTermChar c = true) :
    rstripNlCr (l ++ t) = rstripNlCr l := by
  unfold rstripNlCr
  rw [List.reverse_append, List.dropWhile_append]
  have hnil : t.reverse.dropWhile isTermChar = [] :=
    List.dropWhile_eq_nil_iff.mpr fun c hc => h c (List.mem_reverse.mp hc)
  rw [hnil]
  simp

theorem rstrip_append_nl (l : List Char) :
    rstripNlCr (l ++ ['\n']) = rstripNlCr l := by
  apply rstrip_append_term
  intro c hc
  simp only [List.mem_singleton] at hc
  subst hc
  rfl

theorem rstrip_append_crnl (l : List Char) :
    rstripNlCr (l ++ ['\r', '\n']) = rstripNlCr l := by
  apply rstrip_append_term
  intro c hc
  rcases List.mem_pair.mp hc with h | h <;> subst h <;> rfl

theorem startsWithChar_append_term {c : Char} (hc : isTermChar c = false)
    {t : List Char} (ht : t ≠ []) (hall : ∀ d ∈ t, isTermChar d = true)
    (l : List Char) : startsWithChar c (l ++ t) = startsWithChar c l := by
  cases l with
  | nil =>
    cases t with
    | nil => exact absurd rfl ht
    | cons d ds =>
      have hd : isTermChar d = true := hall d (List.mem_cons_self d ds)
      simp only [List.nil_append, startsWithChar]
      have : d ≠ c := by
        intro h
        rw [h, hc] at hd
        exact Bool.false_ne_true hd
      simp [this]
  | cons a as => rfl

theorem flatten_wrapChunksAux (w : Nat) :
    ∀ (bound : Nat) (s : List Char), s.length ≤ bound →
      (wrapChunksAux bound w s).flatten = s := by
  intro bound
  induction bound with
  | zero =>
    intro s hs
    have : s = [] := List.length_eq_zero.mp (Nat.le_zero.mp hs)
    subst this
    rfl
  | succ b ih =>
    intro s hs
    cases s with
    | nil => rfl
    | cons c cs =>
      have hlen : (cs.drop (w - 1)).length ≤ b := by
        rw [List.length_drop]
        have : cs.length ≤ b := Nat.le_of_succ_le_succ hs
        omega
      simp only [wrapChunksAux, List.flatten_cons, ih _ hlen]
      rw [List.cons_append, List.take_append_drop]

theorem flatten_wrapChunks (w : Nat) (s : List Char) :
    (wrapChunks w s).flatten = s :=
  flatten_wrapChunksAux w s.length s (Nat.le_refl _)

theorem wrapChunksAux_mem (w : Nat) :
    ∀ (bound : Nat) (s ch : List Char), ch ∈ wrapChunksAux bound w s →
      ch ≠ [] ∧ ch ⊆ s := by
  intro bound
  induction bound with
  | zero =>
    intro s ch hch
    cases s <;> simp [wrapChunksAux] at hch
  | succ b ih =>
    intro s ch hch
    cases s with
    | nil => simp [wrapChunksAux] at hch
    | cons c cs =>
      simp only [wrapChunksAux, List.mem_cons] at hch
      rcases hch with h | h
      · subst h
        refine ⟨by simp, ?_⟩
        intro x hx
        rcases List.mem_cons.mp hx with h | h
        · exact h ▸ List.mem_cons_self c cs
        · exact List.mem_cons_of_mem c (List.take_subset _ _ h)
      · obtain ⟨hne, hsub⟩ := ih _ ch h
        exact ⟨hne, fun x hx =>
          List.mem_cons_of_mem c (List.drop_subset _ _ (hsub hx))⟩

theorem wrapChunks_mem {w : Nat} {s ch : List Char} (h : ch ∈ wrapChunks w s) :
    ch ≠ [] ∧ ch ⊆ s :=
  wrapChunksAux_mem w s.length s ch h

/-- Properties of a physical sequence line as `read_fasta` sees it:
stripping recovers the chunk, and it is not a header line. -/
theorem chunk_line_facts {seq ch : List Char} (hseq : cleanSeq seq = true)
    (hch : ch ≠ []) (hsub : ch ⊆ seq) :
    rstripNlCr (ch ++ ['\n']) = ch ∧ startsWithChar '>' (rstripNlCr (ch ++ ['\n'])) = false := by
  have hchars : ∀ c ∈ ch, isTermChar c = false ∧ c ≠ '>' := by
    intro c hc
    have h0 := (List.all_eq_true.mp hseq) c (hsub hc)
    simp only [Bool.and_eq_true, Bool.not_eq_true', decide_eq_true_eq] at h0
    exact h0
  have hclean : cleanText ch = true := by
    apply List.all_eq_true.mpr
    intro c hc
    simpa using (hchars c hc).1
  have hr : rstripNlCr (ch ++ ['\n']) = ch := by
    rw [rstrip_append_nl, rstrip_of_clean hclean]
  refine ⟨hr, ?_⟩
  rw [hr]
  cases ch with
  | nil => exact absurd rfl hch
  | cons a as =>
    have : a ≠ '>' := (hchars a (List.mem_cons_self a as)).2
    simp [startsWithChar, this]

/-- Sequence lines are absorbed into the accumulator without emitting or
closing a record. -/
theorem fastaAux_absorb (chunks : List (List Char))
    (h : ∀ ch ∈ chunks, rstripNlCr (ch ++ ['\n']) = ch ∧
          startsWithChar '>' (rstripNlCr (ch ++ ['\n'])) = false) :
    ∀ (cur : Option (List Char)) (acc : List (List Char)) (rest : List (List Char)),
      fastaAux cur acc (chunks.map (· ++ ['\n']) ++ rest) =
        fastaAux cur (acc ++ chunks) rest := by
  induction chunks with
  | nil => intro cur acc rest; simp
  | cons ch chunks ih =>
    intro cur acc rest
    obtain ⟨hr, hs⟩ := h ch (List.mem_cons_self ch chunks)
    simp only [List.map_cons, List.cons_append, fastaAux, List.append_eq]
    rw [hr] at hs
    rw [hr]
    simp only [hs, Bool.false_eq_true, if_false, List.append_eq]
    rw [ih (fun c hc => h c (List.mem_cons_of_mem ch hc))]
    rw [List.append_cons acc ch chunks]

theorem header_line_rstrip {i : List Char} (hi : cleanText i = true) :
    rstripNlCr ('>' :: (i ++ ['\n'])) = '>' :: i := by
  rw [← List.cons_append, rstrip_append_nl]
  apply rstrip_of_clean
  apply List.all_eq_true.mpr
  intro c hc
  rcases List.mem_cons.mp hc with h | h
  · subst h; rfl
  · exact (List.all_eq_true.mp hi) c h

theorem renderRecord_chunk_facts {w : Nat} {r : FastaRecord}
    (hseq : cleanSeq r.sequence = true) :
    ∀ ch ∈ wrapChunks w r.sequence,
      rstripNlCr (ch ++ ['\n']) = ch ∧
        startsWithChar '>' (rstripNlCr (ch ++ ['\n'])) = false := by
  intro ch hch
  obtain ⟨hne, hsub⟩ := wrapChunks_mem hch
  exact chunk_line_facts hseq hne hsub

/-- Feeding the rendered records after an open header appends exactly
those records. -/
theorem fastaAux_render (w : Nat) :
    ∀ (rs : List FastaRecord),
      (∀ r ∈ rs, cleanText r.id = true ∧ cleanSeq r.sequence = true) →
      ∀ (i : List Char) (acc : List (List Char)),
        fastaAux (some i) acc (renderFasta w rs) = ⟨i, acc.flatten⟩ :: rs := by
  intro rs
  induction rs with
  | nil => intro _ i acc; rfl
  | cons r rs ih =>
    intro h i acc
    obtain ⟨hid, hseq⟩ := h r (List.mem_cons_self r rs)
    simp only [renderFasta, List.map_cons, List.flatten_cons, renderRecord,
      List.cons_append, fastaAux]
    rw [header_line_rstrip hid]
    simp only [startsWithChar, decide_True, if_true, List.append_eq,
      List.nil_append, List.drop_succ_cons, List.drop_zero]
    rw [fastaAux_absorb _ (renderRecord_chunk_facts hseq)]
    simp only [List.nil_append]
    rw [show (List.map (renderRecord w) rs).flatten = renderFasta w rs from rfl]
    rw [ih (fun x hx => h x (List.mem_cons_of_mem r hx)), flatten_wrapChunks]

/-- Parsing a rendered FASTA file recovers exactly the records. -/
theorem readFasta_render (w : Nat) (rs : List FastaRecord)
    (h : ∀ r ∈ rs, cleanText r.id = true ∧ cleanSeq r.sequence = true) :
    readFasta (renderFasta w rs) = rs := by
  cases rs with
  | nil => rfl
  | cons r rs =>
    obtain ⟨hid, hseq⟩ := h r (List.mem_cons_self r rs)
    simp only [readFasta, renderFasta, List.map_cons, List.flatten_cons,
      renderRecord, List.cons_append, fastaAux]
    rw [header_line_rstrip hid]
    simp only [startsWithChar, decide_True, if_true, List.append_eq,
      List.nil_append, List.drop_succ_cons, List.drop_zero]
    rw [fastaAux_absorb _ (renderRecord_chunk_facts hseq)]
    simp only [List.nil_append]
    rw [show (List.map (renderRecord w) rs).flatten = renderFasta w rs from rfl]
    rw [fastaAux_render w rs (fun x hx => h x (List.mem_cons_of_mem r hx)),
      flatten_wrapChunks]

/-- Each rendered record contributes exactly one header line. -/
theorem countHeaders_render (w : Nat) (rs : List FastaRecord)
    (h : ∀ r ∈ rs, cleanSeq r.sequence = true) :
    countHeaders (renderFasta w rs) = rs.length := by
  induction rs with
  | nil => rfl
  | cons r rs ih =>
    have hseq := (h r (List.mem_cons_self r rs))
    simp only [renderFasta, List.map_cons, List.flatten_cons] at *
    rw [show ((renderRecord w r) ++ (List.map (renderRecord w) rs).flatten) =
      renderRecord w r ++ renderFasta w rs from rfl]
    unfold countHeaders
    rw [List.filter_append, List.length_append]
    have h1 : (List.filter isHeaderLine (renderRecord w r)).length = 1 := by
      simp only [renderRecord, List.filter_cons]
      have hhd : isHeaderLine (('>' :: r.id) ++ ['\n']) = true := rfl
      rw [hhd]
      simp only [if_true]
      have hnone :
          List.filter isHeaderLine
            ((wrapChunks w r.sequence).map (· ++ ['\n'])) = [] := by
        apply List.filter_eq_nil_iff.mpr
        intro l hl
        obtain ⟨ch, hch, hln⟩ := List.mem_map.mp hl
        obtain ⟨hne, hsub⟩ := wrapChunks_mem hch
        obtain ⟨-, hs⟩ := chunk_line_facts hseq hne hsub
        subst hln
        cases ch with
        | nil => exact absurd rfl hne
        | cons a as =>
          rw [(chunk_line_facts hseq hne hsub).1] at hs
          simp only [isHeaderLine, List.cons_append, startsWithChar]
          simp only [startsWithChar] at hs
          simp [hs]
      rw [hnone]
      rfl
    rw [h1]
    have h2 := ih (fun x hx => h x (List.mem_cons_of_mem r hx))
    unfold countHeaders at h2
    rw [show renderFasta w rs = (List.map (renderRecord w) rs).flatten from rfl,
      h2, List.length_cons]
    omega

/-- The quality loop only returns when its accumulated length has
reached the needed length. -/
theorem qualLoop_some_length :
    ∀ (fuel need : Nat) (acc qual : List Char)
      (lines rest : List (List Char)),
      qualLoop fuel need acc lines = some (qual, rest) →
        need ≤ qual.length := by
  intro fuel
  induction fuel with
  | zero => intro need acc qual lines rest h; exact absurd h (by simp [qualLoop])
  | succ fuel ih =>
    intro need acc qual lines rest h
    by_cases hlt : acc.length < need
    · cases lines with
      | nil =>
        simp only [qualLoop, if_pos hlt] at h
        exact ih need acc qual [] rest h
      | cons l ls =>
        simp only [qualLoop, if_pos hlt] at h
        exact ih need _ qual ls rest h
    · simp only [qualLoop, if_neg hlt, Option.some.injEq, Prod.mk.injEq] at h
      obtain ⟨h1, -⟩ := h
      subst h1
      omega

/-- At end-of-file a short quality accumulator never completes: each
iteration appends the empty stripped line, so the loop state is
unchanged and any amount of fuel runs out. -/
theorem qualLoop_nil_none {need : Nat} {acc : List Char}
    (h : acc.length < need) :
    ∀ fuel, qualLoop fuel need acc [] = none := by
  intro fuel
  induction fuel with
  | zero => rfl
  | succ fuel ih => simp only [qualLoop, if_pos h]; exact ih

/-- Every record list `read_fastq` actually returns satisfies
`len(sequence) ≤ len(quality)`. -/
theorem fastqAux_quality_ge :
    ∀ (fuel : Nat) (lines : List (List Char)) (recs : List FastqRecord),
      fastqAux fuel lines = some recs →
        ∀ r ∈ recs, r.sequence.length ≤ r.quality.length := by
  intro fuel
  induction fuel with
  | zero => intro lines recs h; exact absurd h (by simp [fastqAux])
  | succ fuel ih =>
    intro lines recs h
    cases lines with
    | nil =>
      simp only [fastqAux, Option.some.injEq] at h
      subst h
      intro r hr
      exact absurd hr (List.not_mem_nil r)
    | cons idLine rest =>
      by_cases hid : idLine = []
      · simp only [fastqAux, if_pos hid, Option.some.injEq] at h
        subst h
        intro r hr
        exact absurd hr (List.not_mem_nil r)
      · simp only [fastqAux, if_neg hid] at h
        split at h
        next => exact absurd h (by simp)
        next qual rest3 hq =>
          split at h
          next => exact absurd h (by simp)
          next recs2 hrec =>
            simp only [Option.some.injEq] at h
            subst h
            intro r hr
            rcases List.mem_cons.mp hr with h | h
            · subst h
              exact qualLoop_some_length fuel _ [] qual _ rest3 hq
            · exact ih rest3 recs2 hrec r h

/-- Before any header has been seen, the sequence accumulator of
`read_fasta` is dead state: it is discarded by the first header line and
never emitted. -/
theorem fastaAux_none_acc_irrel :
    ∀ (lines : List (List Char)) (acc acc2 : List (List Char)),
      fastaAux none acc lines = fastaAux none acc2 lines := by
  intro lines
  induction lines with
  | nil => intro acc acc2; rfl
  | cons l rest ih =>
    intro acc acc2
    simp only [fastaAux]
    by_cases hs : startsWithChar '>' (rstripNlCr l) = true
    · simp [hs]
    · simp only [Bool.not_eq_true] at hs
      simp only [hs, Bool.false_eq_true, if_false]
      exact ih _ _

/-- Leading non-header lines are silently discarded by `read_fasta`. -/
theorem readFasta_drop_leading :
    ∀ (pre lines : List (List Char)),
      (∀ l ∈ pre, startsWithChar '>' (rstripNlCr l) = false) →
      readFasta (pre ++ lines) = readFasta lines := by
  intro pre
  induction pre with
  | nil => intro lines _; rfl
  | cons p pre ih =>
    intro lines h
    have hp := h p (List.mem_cons_self p pre)
    simp only [readFasta, List.cons_append, fastaAux, hp, Bool.false_eq_true,
      if_false, List.nil_append, List.append_eq]
    rw [fastaAux_none_acc_irrel (pre ++ lines) [rstripNlCr p] []]
    exact ih lines (fun l hl => h l (List.mem_cons_of_mem p hl))

/-- `read_fasta` sees a line only through `rstrip`, so appending any
all-terminator suffix to every line is invisible to it. -/
theorem fastaAux_map_term {t : List Char}
    (hall : ∀ c ∈ t, isTermChar c = true) :
    ∀ (ls : List (List Char)) (cur : Option (List Char))
      (acc : List (List Char)),
      fastaAux cur acc (ls.map (· ++ t)) = fastaAux cur acc ls := by
  intro ls
  induction ls with
  | nil => intro cur acc; rfl
  | cons l rest ih =>
    intro cur acc
    have hr : rstripNlCr (l ++ t) = rstripNlCr l := rstrip_append_term hall
    simp only [List.map_cons, fastaAux, hr]
    by_cases hs : startsWithChar '>' (rstripNlCr l) = true
    · simp only [hs, if_true]
      rw [ih]
    · simp only [Bool.not_eq_true] at hs
      simp only [hs, Bool.false_eq_true, if_false]
      exact ih _ _

/-- The sequence loop of `read_fastq` on terminated lines equals its
terminator-free normal form. -/
theorem seqLoop_map {t : List Char} (ht : t ≠ [])
    (hall : ∀ c ∈ t, isTermChar c = true) :
    ∀ ls : List (List Char),
      seqLoop (ls.map (· ++ t)) =
        ((seqLoopC ls).1, (seqLoopC ls).2.map (· ++ t)) := by
  intro ls
  induction ls with
  | nil => rfl
  | cons l rest ih =>
    have hne : l ++ t ≠ [] := List.append_ne_nil_of_right_ne_nil l ht
    have hplus : startsWithChar '+' (l ++ t) = startsWithChar '+' l :=
      startsWithChar_append_term (c := '+') rfl ht hall l
    have hr : rstripNlCr (l ++ t) = rstripNlCr l := rstrip_append_term hall
    simp only [List.map_cons, seqLoop, seqLoopC, hne, hplus, hr,
      decide_False, Bool.false_or]
    by_cases hs : startsWithChar '+' l = true
    · simp [hs]
    · simp only [Bool.not_eq_true] at hs
      simp only [hs, Bool.false_eq_true, if_false]
      rw [ih]

/-- The quality loop of `read_fastq` on terminated lines equals the same
loop on the stripped lines, with the leftover lines still terminated. -/
theorem qualLoop_map {t : List Char}
    (hall : ∀ c ∈ t, isTermChar c = true) :
    ∀ (fuel need : Nat) (acc : List Char) (ls : List (List Char)),
      qualLoop fuel need acc (ls.map (· ++ t)) =
        Option.map (fun p => (p.1, p.2.map (· ++ t)))
          (qualLoop fuel need acc ls) := by
  intro fuel
  induction fuel with
  | zero => intro need acc ls; rfl
  | succ fuel ih =>
    intro need acc ls
    by_cases hlt : acc.length < need
    · cases ls with
      | nil =>
        simp only [List.map_nil, qualLoop, if_pos hlt]
        exact ih need acc []
      | cons l rest =>
        have hr : rstripNlCr (l ++ t) = rstripNlCr l := rstrip_append_term hall
        simp only [List.map_cons, qualLoop, if_pos hlt, hr]
        exact ih need _ rest
    · simp only [qualLoop, if_neg hlt]
      rfl

/-- `read_fastq` on terminated lines equals its terminator-free normal
form. -/
theorem fastqAux_map_term {t : List Char} (ht : t ≠ [])
    (hall : ∀ c ∈ t, isTermChar c = true) :
    ∀ (fuel : Nat) (ls : List (List Char)),
      fastqAux fuel (ls.map (· ++ t)) = fastqAuxC fuel ls := by
  intro fuel
  induction fuel with
  | zero => intro ls; rfl
  | succ fuel ih =>
    intro ls
    cases ls with
    | nil => rfl
    | cons idLine rest =>
      have hne : idLine ++ t ≠ [] :=
        List.append_ne_nil_of_right_ne_nil idLine ht
      have hr : rstripNlCr (idLine ++ t) = rstripNlCr idLine :=
        rstrip_append_term hall
      simp only [List.map_cons, fastqAux, fastqAuxC, hne, if_false, hr,
        seqLoop_map ht hall]
      rw [qualLoop_map hall]
      rcases qualLoop fuel (seqLoopC rest).1.flatten.length []
          (seqLoopC rest).2 with - | ⟨qual, rest3⟩
      · rfl
      · simp only [Option.map_some']
        rw [ih rest3]

theorem cleanText_cons {c : Char} (hc : isTermChar c = false)
    {s : List Char} (hs : cleanText s = true) :
    cleanText (c :: s) = true := by
  apply List.all_eq_true.mpr
  intro d hd
  rcases List.mem_cons.mp hd with h | h
  · subst h; simpa using hc
  · exact (List.all_eq_true.mp hs) d h

/-- One complete FASTQ record with an arbitrary header line (already
stripped of terminators), sequence `AC` and quality `II`, through the
terminator-free normal form: the first character of the header line is
dropped unconditionally. -/
theorem fastqAuxC_single (h : List Char) (hc : cleanText h = true) :
    fastqAuxC 3 [h, ['A', 'C'], ['+'], ['I', 'I']] =
      some [⟨h.drop 1, ['A', 'C'], ['I', 'I']⟩] := by
  simp only [fastqAuxC, rstrip_of_clean hc]
  rfl

/-- With the quality accumulator two characters short of four and only
the line `II` left, the quality loop never returns, whatever the fuel. -/
theorem qualLoop_two_of_four_none :
    ∀ fuel, qualLoop fuel 4 [] [['I', 'I', '\n']] = none := by
  intro fuel
  cases fuel with
  | zero => rfl
  | succ fuel =>
    have h1 : qualLoop (fuel + 1) 4 [] [['I', 'I', '\n']] =
        qualLoop fuel 4 ['I', 'I'] [] := rfl
    rw [h1]
    exact qualLoop_nil_none (by decide) fuel

/-! ### Claim theorems -/

/-- C1, counterexample: on input `"@a\nACGT\n+\nIIIII\n"` (one quality
line of five characters against a four-character sequence) `read_fastq`
succeeds and returns the record with the full five-character quality —
it neither fails nor trims, so `len(quality) == len(sequence)` does not
hold for every successfully parsed record. -/
theorem readFastq_overshoot_accepted :
    readFastq 10 ["@a\n".toList, "ACGT\n".toList, "+\n".toList,
        "IIIII\n".toList] =
      some [⟨"a".toList, "ACGT".toList, "IIIII".toList⟩] ∧
    ("IIIII".toList.length = "ACGT".toList.length) = False := by
  constructor
  · decide
  · decide

/-- C1, amended: every record list `read_fastq` actually returns
satisfies `len(sequence) ≤ len(quality)`: the quality loop exits only
once its accumulated length has reached the sequence length, but a final
quality line may overshoot, in which case the record is emitted with the
longer, untrimmed quality (equality holds exactly when the quality line
boundaries align with the sequence length). -/
theorem readFastq_quality_ge_sequence (fuel : Nat)
    (lines : List (List Char)) (recs : List FastqRecord)
    (h : readFastq fuel lines = some recs) :
    ∀ r ∈ recs, r.sequence.length ≤ r.quality.length :=
  fastqAux_quality_ge fuel lines recs h

/-- C1, witness for the amended theorem at the overshoot input's one
record. -/
theorem readFastq_quality_ge_sequence_witness :
    (⟨"a".toList, "ACGT".toList, "IIIII".toList⟩ :
        FastqRecord).sequence.length ≤
      (⟨"a".toList, "ACGT".toList, "IIIII".toList⟩ :
        FastqRecord).quality.length :=
  readFastq_quality_ge_sequence 10
    ["@a\n".toList, "ACGT\n".toList, "+\n".toList, "IIIII\n".toList]
    [⟨"a".toList, "ACGT".toList, "IIIII".toList⟩] (by decide)
    ⟨"a".toList, "ACGT".toList, "IIIII".toList⟩ (by decide)

/-- C2: on input `"@a\nACGT\n+\nII\n"` — end-of-input reached while the
quality (2 chars) is still shorter than the sequence (4 chars) — the
quality loop of `read_fastq` re-reads the empty end-of-file line forever:
for every fuel bound the run is still unfinished, i.e. the code neither
returns a truncated record nor reports an error — it fails to terminate.
(The claim's required behaviour, a malformed-record error, is what the
spec demands; the loop `while qual_length < len(seq_str)` adds zero
characters per iteration at EOF, so the guard never becomes false.) -/
theorem readFastq_truncated_loops_forever :
    ∀ fuel, readFastq fuel
      ["@a\n".toList, "ACGT\n".toList, "+\n".toList, "II\n".toList] =
        none := by
  intro fuel
  cases fuel with
  | zero => rfl
  | succ fuel =>
    have h1 : readFastq (fuel + 1)
        ["@a\n".toList, "ACGT\n".toList, "+\n".toList, "II\n".toList] =
        match qualLoop fuel 4 [] [['I', 'I', '\n']] with
        | none => none
        | some (qual, rest3) =>
          match fastqAux fuel rest3 with
          | none => none
          | some recs =>
            some (⟨['a'], ['A', 'C', 'G', 'T'], qual⟩ :: recs) := rfl
    rw [h1, qualLoop_two_of_four_none fuel]

/-- C3: for a well-formed FASTA input (here: any record list rendered at
wrap width `w ≥ 1`, with ids free of terminators and sequences free of
terminators and of `'>'`), `read_fasta` returns exactly as many records
as there are header lines, each with the exact concatenation of its
wrapped lines, and re-wrapping at any other width `w2` re-parses to the
very same records. -/
theorem readFasta_roundtrip_wrap (w w2 : Nat) (rs : List FastaRecord)
    (hw : 1 ≤ w) (hw2 : 1 ≤ w2)
    (h : ∀ r ∈ rs, cleanText r.id = true ∧ cleanSeq r.sequence = true) :
    readFasta (renderFasta w rs) = rs ∧
      countHeaders (renderFasta w rs) = rs.length ∧
      readFasta (renderFasta w2 rs) = readFasta (renderFasta w rs) := by
  refine ⟨readFasta_render w rs h,
    countHeaders_render w rs (fun r hr => (h r hr).2), ?_⟩
  rw [readFasta_render w rs h, readFasta_render w2 rs h]

/-- C3, witness: the spec's concrete scenario records, rendered at widths
2 and 3. -/
theorem readFasta_roundtrip_wrap_witness :
    readFasta (renderFasta 2
        [⟨"s1 d".toList, "ACGT".toList⟩, ⟨"s2".toList, "TT".toList⟩]) =
      [⟨"s1 d".toList, "ACGT".toList⟩, ⟨"s2".toList, "TT".toList⟩] ∧
    countHeaders (renderFasta 2
        [⟨"s1 d".toList, "ACGT".toList⟩, ⟨"s2".toList, "TT".toList⟩]) = 2 ∧
    readFasta (renderFasta 3
        [⟨"s1 d".toList, "ACGT".toList⟩, ⟨"s2".toList, "TT".toList⟩]) =
      readFasta (renderFasta 2
        [⟨"s1 d".toList, "ACGT".toList⟩, ⟨"s2".toList, "TT".toList⟩]) :=
  readFasta_roundtrip_wrap 2 3
    [⟨"s1 d".toList, "ACGT".toList⟩, ⟨"s2".toList, "TT".toList⟩]
    (by decide) (by decide) (by decide)

/-- C4, counterexample: on input `"AC\n>s\nGT\n"`, whose first line is
not a header, `read_fasta` succeeds and returns only the record
`("s", "GT")`: the leading non-header line is silently discarded, not a
malformed-input error (the function has no error path at all). -/
theorem readFasta_leading_garbage_accepted :
    readFasta ["AC\n".toList, ">s\n".toList, "GT\n".toList] =
      [⟨"s".toList, "GT".toList⟩] := by
  decide

/-- C4, amended: any leading lines that do not start (after stripping)
with `'>'` are silently discarded by `read_fasta`: parsing succeeds and
yields exactly the records of the remaining input. -/
theorem readFasta_leading_nonheader_discarded (pre lines : List (List Char))
    (h : ∀ l ∈ pre, startsWithChar '>' (rstripNlCr l) = false) :
    readFasta (pre ++ lines) = readFasta lines :=
  readFasta_drop_leading pre lines h

/-- C4, witness for the amended theorem. -/
theorem readFasta_leading_nonheader_discarded_witness :
    readFasta (["AC\n".toList] ++ [">s\n".toList, "GT\n".toList]) =
      readFasta [">s\n".toList, "GT\n".toList] :=
  readFasta_leading_nonheader_discarded ["AC\n".toList]
    [">s\n".toList, "GT\n".toList] (by decide)

/-- C5, counterexample: on input `"Xa\nAC\n+\nII\n"`, whose record
boundary line does not begin with `'@'`, `read_fastq` succeeds anyway:
`id_line.rstrip('\n\r')[1:]` chops the first character unconditionally,
so the record `("a", "AC", "II")` is returned and no malformed-record
error exists. -/
theorem readFastq_missing_at_accepted :
    startsWithChar '@' "Xa\n".toList = false ∧
    readFastq 10 ["Xa\n".toList, "AC\n".toList, "+\n".toList,
        "II\n".toList] =
      some [⟨"a".toList, "AC".toList, "II".toList⟩] := by
  constructor
  · decide
  · decide

/-- C5, amended: at a record boundary the first character of the
(stripped) header line is removed unconditionally and the remainder
becomes the record's id, whether or not that first character is `'@'`;
a missing `'@'` is not detected and parsing does not fail. -/
theorem readFastq_header_first_char_dropped (c : Char) (s : List Char)
    (hc : cleanText (c :: s) = true) :
    readFastq 3 [((c :: s) ++ ['\n']), "AC\n".toList, "+\n".toList,
        "II\n".toList] =
      some [⟨s, "AC".toList, "II".toList⟩] := by
  have hmap : [((c :: s) ++ ['\n']), "AC\n".toList, "+\n".toList,
      "II\n".toList] =
      [c :: s, ['A', 'C'], ['+'], ['I', 'I']].map (· ++ ['\n']) := rfl
  rw [hmap]
  show fastqAux 3 _ = _
  rw [fastqAux_map_term (by decide) (by decide) 3
    [c :: s, ['A', 'C'], ['+'], ['I', 'I']]]
  rw [fastqAuxC_single (c :: s) hc]
  simp [List.drop_succ_cons, List.drop_zero]

/-- C5, witness for the amended theorem: header line `Xa` (first
character not `'@'`) still parses, id `a`. -/
theorem readFastq_header_first_char_dropped_witness :
    readFastq 3 [(('X' :: "a".toList) ++ ['\n']), "AC\n".toList,
        "+\n".toList, "II\n".toList] =
      some [⟨"a".toList, "AC".toList, "II".toList⟩] :=
  readFastq_header_first_char_dropped 'X' "a".toList (by decide)

/-- C6: the parsed record's `id` field is the full header-line content
after the `>` marker — whatever it is, embedded spaces included, with no
name/description sub-splitting — and the `sequence` field sits alongside
it, holding the concatenation of the sequence lines. -/
theorem readFasta_id_is_full_header (s : List Char)
    (hc : cleanText s = true) :
    readFasta [('>' :: s) ++ ['\n'], "AC\n".toList, "GT\n".toList] =
      [⟨s, "ACGT".toList⟩] := by
  have hmap : [('>' :: s) ++ ['\n'], "AC\n".toList, "GT\n".toList] =
      ['>' :: s, ['A', 'C'], ['G', 'T']].map (· ++ ['\n']) := rfl
  rw [hmap]
  show fastaAux none [] _ = _
  rw [fastaAux_map_term (by decide) ['>' :: s, ['A', 'C'], ['G', 'T']]
    none []]
  have hclean : cleanText ('>' :: s) = true := cleanText_cons (by decide) hc
  have e1 : startsWithChar '>' ('>' :: s) = true := rfl
  have e2 : rstripNlCr ['A', 'C'] = ['A', 'C'] := rfl
  have e3 : rstripNlCr ['G', 'T'] = ['G', 'T'] := rfl
  have e4 : startsWithChar '>' ['A', 'C'] = false := rfl
  have e5 : startsWithChar '>' ['G', 'T'] = false := rfl
  simp only [fastaAux, rstrip_of_clean hclean, e1, e2, e3, e4, e5, if_true,
    Bool.false_eq_true, if_false, List.drop_succ_cons, List.drop_zero,
    List.nil_append]
  rfl

/-- C6, witness: a header with embedded spaces is kept whole in `id`. -/
theorem readFasta_id_is_full_header_witness :
    readFasta [('>' :: "seq1 description one".toList) ++ ['\n'],
        "AC\n".toList, "GT\n".toList] =
      [⟨"seq1 description one".toList, "ACGT".toList⟩] :=
  readFasta_id_is_full_header "seq1 description one".toList (by decide)

/-- C7 (modelled from the spec, see `resolveSelector`): the constructors
accept exactly one input selector — a path, an open byte stream, or
standard input (`-` or no selector at all) — each alone is accepted, and
supplying both a path and a stream is a configuration error. -/
theorem resolveSelector_exactly_one :
    (∀ p, resolveSelector (some p) true = .err .bothPathAndFile) ∧
    resolveSelector none false = .ok .stdin ∧
    resolveSelector (some ['-']) false = .ok .stdin ∧
    resolveSelector none true = .ok .stream ∧
    (∀ p, p ≠ ['-'] → resolveSelector (some p) false = .ok (.file p)) := by
  refine ⟨fun p => rfl, rfl, rfl, rfl, fun p hp => ?_⟩
  simp [resolveSelector, hp]

/-- C7, witness at a concrete path. -/
theorem resolveSelector_exactly_one_witness :
    resolveSelector (some "x.fasta".toList) true = .err .bothPathAndFile ∧
    resolveSelector (some "x.fasta".toList) false =
      .ok (.file "x.fasta".toList) :=
  ⟨resolveSelector_exactly_one.1 "x.fasta".toList,
    resolveSelector_exactly_one.2.2.2.2 "x.fasta".toList (by decide)⟩

/-- C8: both readers see each physical line only through
`rstrip('\n\r')` (and prefix tests unaffected by trailing terminators),
so the same content terminated by CRLF and by LF parses to the same
record lists — ids, sequences and qualities alike — for every input and
every fuel bound. -/
theorem readers_crlf_lf_equivalent (ls : List (List Char)) (fuel : Nat) :
    readFasta (ls.map (· ++ ['\r', '\n'])) =
      readFasta (ls.map (· ++ ['\n'])) ∧
    readFastq fuel (ls.map (· ++ ['\r', '\n'])) =
      readFastq fuel (ls.map (· ++ ['\n'])) := by
  have hcr : ∀ c ∈ (['\r', '\n'] : List Char), isTermChar c = true := by
    decide
  have hnl : ∀ c ∈ (['\n'] : List Char), isTermChar c = true := by decide
  constructor
  · show fastaAux none [] _ = fastaAux none [] _
    rw [fastaAux_map_term hcr, fastaAux_map_term hnl]
  · show fastqAux fuel _ = fastqAux fuel _
    rw [fastqAux_map_term (by decide) hcr, fastqAux_map_term (by decide) hnl]

/-- C9: marker stripping removes exactly the first character of the
header line and nothing else: a bare `>` (resp. `@`) header yields the
empty id when `s = []`, and any characters after the marker — spaces
included — are preserved verbatim in the id. -/
theorem marker_strip_exactly_first_char (s : List Char)
    (hc : cleanText s = true) :
    readFasta [('>' :: s) ++ ['\n']] = [⟨s, []⟩] ∧
    readFastq 3 [('@' :: s) ++ ['\n'], "AC\n".toList, "+\n".toList,
        "II\n".toList] =
      some [⟨s, "AC".toList, "II".toList⟩] := by
  constructor
  · have hmap : [('>' :: s) ++ ['\n']] = ['>' :: s].map (· ++ ['\n']) := rfl
    rw [hmap]
    show fastaAux none [] _ = _
    rw [fastaAux_map_term (by decide) ['>' :: s] none []]
    have hclean : cleanText ('>' :: s) = true := cleanText_cons (by decide) hc
    have e1 : startsWithChar '>' ('>' :: s) = true := rfl
    simp only [fastaAux, rstrip_of_clean hclean, e1, if_true,
      List.drop_succ_cons, List.drop_zero, List.nil_append]
    rfl
  · have hmap : [('@' :: s) ++ ['\n'], "AC\n".toList, "+\n".toList,
        "II\n".toList] =
        ['@' :: s, ['A', 'C'], ['+'], ['I', 'I']].map (· ++ ['\n']) := rfl
    rw [hmap]
    show fastqAux 3 _ = _
    rw [fastqAux_map_term (by decide) (by decide) 3
      ['@' :: s, ['A', 'C'], ['+'], ['I', 'I']]]
    rw [fastqAuxC_single ('@' :: s) (cleanText_cons (by decide) hc)]
    simp [List.drop_succ_cons, List.drop_zero]

/-- C9, witness: at `s = []` (bare markers give the empty id) and at
`s = " x"` (spaces straight after the marker survive in the id). -/
theorem marker_strip_exactly_first_char_witness :
    (readFasta [('>' :: ([] : List Char)) ++ ['\n']] = [⟨[], []⟩] ∧
      readFastq 3 [('@' :: ([] : List Char)) ++ ['\n'], "AC\n".toList,
          "+\n".toList, "II\n".toList] =
        some [⟨[], "AC".toList, "II".toList⟩]) ∧
    (readFasta [('>' :: " x".toList) ++ ['\n']] = [⟨" x".toList, []⟩] ∧
      readFastq 3 [('@' :: " x".toList) ++ ['\n'], "AC\n".toList,
          "+\n".toList, "II\n".toList] =
        some [⟨" x".toList, "AC".toList, "II".toList⟩]) :=
  ⟨marker_strip_exactly_first_char [] (by decide),
    marker_strip_exactly_first_char " x".toList (by decide)⟩

/-- C10: `FastqRecord.__eq__` is field-wise — two records compare equal
exactly when `id`, `sequence` and `quality` all agree — and comparing a
record against a value of any other type returns not-equal (`False`)
rather than raising. -/
theorem fastqRecordEq_fieldwise (a b : FastqRecord) (s : List Char)
    (n : Int) :
    (fastqRecordEq a (.fastq b) = true ↔
      (a.id = b.id ∧ a.sequence = b.sequence ∧ a.quality = b.quality)) ∧
    fastqRecordEq a (.str s) = false ∧
    fastqRecordEq a (.int n) = false ∧
    fastqRecordEq a .noneVal = false := by
  refine ⟨?_, rfl, rfl, rfl⟩
  simp [fastqRecordEq, and_assoc]

end Prseq
